import Mathlib

/-!
A shallow embedding of `concat-md.js`.

The script walks a directory tree, collects the Markdown files, sorts them by
relative path, and writes their normalised contents, one after another, into a
single output file.

Conventions of the embedding.

* A JavaScript string is a `List Char` (`Str`).  Every character the script
  inspects (`#`, `.`, `/`, the byte-order mark, carriage return, line feed and
  the ECMAScript white space characters) lies in the Basic Multilingual Plane,
  so the difference between UTF-16 code units and code points plays no role.
* A path is the list of its components (`Path`); `path.join(dir, name)` appends
  one component and `path.relative` strips the common prefix.
* The directory tree that `fs.readdir` lists is a value of type `Node`; the
  order of the children of a directory is the order in which `readdir`
  returns them.
* `Array.prototype.push` appends at the end of a list and
  `Array.prototype.join("")` concatenates.
* The collation behind `localeCompare` belongs to the runtime: `sort` and `main`
  take the comparator as an argument, and the general results hold for every
  consistent comparator.  The definition `localeCompare` is the comparison at
  primary strength of the root collation, used for the concrete runs.
* The destination is a `Disk`: the directories and files that exist, with
  `fs.mkdir` and `fs.writeFile` failing as the file system makes them fail.
-/

namespace ConcatMd

/-- A JavaScript string, as its list of characters. -/
abbrev Str := List Char

/-- A file system path, as its list of components. -/
abbrev Path := List Str

/-! ## Characters -/

/-- The byte-order mark, U+FEFF. -/
def BOM : Char := Char.ofNat 0xFEFF

/-- Carriage return. -/
def CR : Char := Char.ofNat 13

/-- Line feed. -/
def LF : Char := Char.ofNat 10

/-- The characters matched by the regular-expression class `\s`, which are also
the characters removed by `trimStart` and `trimEnd`: ECMAScript WhiteSpace and
LineTerminator. -/
def isWhiteSpace (c : Char) : Bool :=
  let n := c.toNat
  n == 0x09 || n == 0x0A || n == 0x0B || n == 0x0C || n == 0x0D || n == 0x20 ||
  n == 0xA0 || n == 0x1680 || (0x2000 ≤ n && n ≤ 0x200A) || n == 0x2028 ||
  n == 0x2029 || n == 0x202F || n == 0x205F || n == 0x3000 || n == 0xFEFF

/-- The method `String.prototype.trimStart`. -/
def trimStart (s : Str) : Str := s.dropWhile isWhiteSpace

/-- The method `String.prototype.trimEnd`. -/
def trimEnd (s : Str) : Str := (s.reverse.dropWhile isWhiteSpace).reverse

/-- The method `String.prototype.toLowerCase`, on the characters whose lower-case
form is an ASCII letter: `A` to `Z` and the Kelvin sign U+212A.  Every other
character is left as it is: none of them lower-cases to a string of ASCII
letters, so membership of the result in `exts` is the one JavaScript
computes. -/
def toLowerCase (s : Str) : Str :=
  s.map fun c => if c.toNat = 0x212A then 'k' else c.toLower

/-! ## The directory tree -/

/-- A directory entry as `fs.readdir(dir, { withFileTypes: true })` reports it:
a regular file with its text, a directory with its own entries, or anything
else (a symbolic link, a socket, a device), for which both `isDirectory()` and
`isFile()` are false. -/
inductive Node where
  | file (name : Str) (content : Str)
  | dir (name : Str) (children : List Node)
  | other (name : Str)

/-- The record pushed by `getMarkdownFiles`. -/
structure FileEntry where
  absPath : Path
  relPath : Str
deriving DecidableEq, Repr

/-- The constant `exts`. -/
def exts : List Str := [".md".toList, ".markdown".toList, ".mdx".toList]

/-- The constant `ignoreDirs`. -/
def ignoreDirs : List Str :=
  ["node_modules".toList, ".git".toList, ".github".toList, ".next".toList,
   "dist".toList, "build".toList, ".cache".toList]

/-- The index of the last `.` of a name, if there is one. -/
def lastDot : Str → Option Nat
  | [] => none
  | c :: cs =>
    match lastDot cs with
    | some i => some (i + 1)
    | none => if c = '.' then some 0 else none

/-- The function `path.extname` of Node.js on a single path component: the part
from the last `.` to the end; empty when there is no dot, when the last dot
is the first character, and for the component `..`. -/
def extname (name : Str) : Str :=
  match lastDot name with
  | none => []
  | some 0 => []
  | some (i + 1) => if name = "..".toList then [] else name.drop (i + 1)

/-- The function `path.relative(from, to)` on absolute, normalised paths: the
common prefix is dropped, and every component left of `from` becomes `..`. -/
def relative : Path → Path → Path
  | f :: fs, t :: ts => if f = t then relative fs ts else ((f :: fs).map fun _ => "..".toList) ++ (t :: ts)
  | fs, ts => (fs.map fun _ => "..".toList) ++ ts

/-- The method `Array.prototype.join("/")` on path components. -/
def joinSlash (comps : Path) : Str := [ '/' ].intercalate comps

mutual
/-- The function `getMarkdownFiles(dir, baseDir, files)`; `entries` is what
`fs.readdir(dir)` returns.  The result is the array `files` after the loop. -/
def getMarkdownFiles (dir baseDir : Path) (files : List FileEntry) :
    List Node → List FileEntry
  | [] => files
  | entry :: rest => getMarkdownFiles dir baseDir (visitEntry dir baseDir files entry) rest
/-- The body of the `for` loop of `getMarkdownFiles`, for one entry. -/
def visitEntry (dir baseDir : Path) (files : List FileEntry) : Node → List FileEntry
  | .dir name children =>
    if name ∈ ignoreDirs then files
    else getMarkdownFiles (dir ++ [name]) baseDir files children
  | .file name _ =>
    let ext := toLowerCase (extname name)
    if ext ∈ exts then
      let absPath := dir ++ [name]
      let relPath := joinSlash (relative baseDir absPath)
      files ++ [{ absPath := absPath, relPath := relPath }]
    else files
  | .other _ => files
end

/-! ## Normalisation -/

/-- The call `s.replace(/^\uFEFF/, "")`: a byte-order mark at the very start of
the string is removed; the pattern is anchored and not global, so at most one
character goes. -/
def stripBOM : Str → Str
  | [] => []
  | c :: cs => if c = BOM then cs else c :: cs

/-- The call `s.replace(/\r\n/g, "\n")`: the string is scanned from the left and
every match of carriage return plus line feed is replaced by a line feed;
the scan resumes after the match. -/
def replaceCRLF : Str → Str
  | [] => []
  | [c] => [c]
  | c :: d :: rest =>
    if c = CR ∧ d = LF then LF :: replaceCRLF rest
    else c :: replaceCRLF (d :: rest)

/-- The function `normalizeContent(s)`. -/
def normalizeContent (s : Str) : Str :=
  if s = [] then [] else replaceCRLF (stripBOM s)

/-! ## Sorting -/

/-- Insertion of one entry into a sorted array, as a stable sort does it: the
entry came before all of `l` in the input and is placed before the first
element it does not compare greater than. -/
def orderedInsert (localeCompare : Str → Str → Int) (a : FileEntry) :
    List FileEntry → List FileEntry
  | [] => [a]
  | b :: l =>
    if localeCompare a.relPath b.relPath ≤ 0 then a :: b :: l
    else b :: orderedInsert localeCompare a l

/-- The call `files.sort((a, b) => a.relPath.localeCompare(b.relPath, undefined,
{ sensitivity: "base" }))`.  `Array.prototype.sort` is stable, which fixes its
result for every consistent comparator; `localeCompare` stands for the
collation of the JavaScript runtime at sensitivity `base`. -/
def sort (localeCompare : Str → Str → Int) : List FileEntry → List FileEntry
  | [] => []
  | a :: l => orderedInsert localeCompare a (sort localeCompare l)

/-- The primary collation weights of the characters U+0000 to U+00FF, in code
point order, as the Default Unicode Collation Element Table gives them: no
weight for a control character, white space before punctuation before symbols
before digits before letters, one weight for a letter, its capital and its
accented forms. -/
def primaryWeights : List (List Nat) :=
  [
   [], [], [], [], [], [], [], [],
   [], [0x0201], [0x0202], [0x0203], [0x0204], [0x0205], [], [],
   [], [], [], [], [], [], [], [],
   [], [], [], [], [], [], [], [],
   [0x0209], [0x0267], [0x031D], [0x03AC], [0x1F64], [0x03AD], [0x03A9], [0x0316],
   [0x0328], [0x0329], [0x03A1], [0x0666], [0x0223], [0x020D], [0x027E], [0x03A6],
   [0x1F98], [0x1F99], [0x1F9A], [0x1F9B], [0x1F9C], [0x1F9D], [0x1F9E], [0x1F9F],
   [0x1FA0], [0x1FA1], [0x0240], [0x023A], [0x066A], [0x066B], [0x066C], [0x026D],
   [0x03A0], [0x1FA2], [0x1FBC], [0x1FD6], [0x1FEB], [0x2007], [0x2042], [0x2051],
   [0x2075], [0x2090], [0x20AB], [0x20C4], [0x20D6], [0x2109], [0x2118], [0x213C],
   [0x216B], [0x2180], [0x2193], [0x21D2], [0x21F7], [0x2217], [0x2247], [0x2259],
   [0x2264], [0x2270], [0x2286], [0x032A], [0x03A7], [0x032B], [0x04B7], [0x020B],
   [0x04B4], [0x1FA2], [0x1FBC], [0x1FD6], [0x1FEB], [0x2007], [0x2042], [0x2051],
   [0x2075], [0x2090], [0x20AB], [0x20C4], [0x20D6], [0x2109], [0x2118], [0x213C],
   [0x216B], [0x2180], [0x2193], [0x21D2], [0x21F7], [0x2217], [0x2247], [0x2259],
   [0x2264], [0x2270], [0x2286], [0x032C], [0x066E], [0x032D], [0x0670], [],
   [], [], [], [], [], [0x0206], [], [],
   [], [], [], [], [], [], [], [],
   [], [], [], [], [], [], [], [],
   [], [], [], [], [], [], [], [],
   [0x0209], [0x0268], [0x1F63], [0x1F65], [0x1F62], [0x1F66], [0x066F], [0x039A],
   [0x04BB], [0x05D2], [0x1FA2], [0x0326], [0x066D], [], [0x05D4], [0x04B8],
   [0x052A], [0x0667], [0x1F9A], [0x1F9B], [0x04B5], [0x2330], [0x039C], [0x0293],
   [0x04BE], [0x1F99], [0x213C], [0x0327], [0x1F99, 0x0676, 0x1F9C], [0x1F99, 0x0676, 0x1F9A], [0x1F9B, 0x0676, 0x1F9C], [0x026E],
   [0x1FA2], [0x1FA2], [0x1FA2], [0x1FA2], [0x1FA2], [0x1FA2], [0x1FA2, 0x2007], [0x1FD6],
   [0x2007], [0x2007], [0x2007], [0x2007], [0x2090], [0x2090], [0x2090], [0x2090],
   [0x1FEB], [0x2118], [0x213C], [0x213C], [0x213C], [0x213C], [0x213C], [0x0669],
   [0x213C], [0x2217], [0x2217], [0x2217], [0x2217], [0x2270], [0x22B5], [0x21D2, 0x21D2],
   [0x1FA2], [0x1FA2], [0x1FA2], [0x1FA2], [0x1FA2], [0x1FA2], [0x1FA2, 0x2007], [0x1FD6],
   [0x2007], [0x2007], [0x2007], [0x2007], [0x2090], [0x2090], [0x2090], [0x2090],
   [0x1FEB], [0x2118], [0x213C], [0x213C], [0x213C], [0x213C], [0x213C], [0x0668],
   [0x213C], [0x2217], [0x2217], [0x2217], [0x2217], [0x2270], [0x22B5], [0x2270]]

/-- The primary weights of one character: those of the table for U+0000 to
U+00FF, none for a combining diacritical mark (U+0300 to U+0362); a character
beyond stands after all of the table, in code point order. -/
def collationKey (c : Char) : List Nat :=
  let n := c.toNat
  if n < 0x100 then primaryWeights.getD n []
  else if 0x300 ≤ n ∧ n ≤ 0x362 then []
  else [0x10000 + n]

/-- The comparison of two sequences of weights: the first position at which they
differ decides, and a proper prefix comes first. -/
def compareKeys : List Nat → List Nat → Int
  | [], [] => 0
  | [], _ :: _ => -1
  | _ :: _, [] => 1
  | x :: xs, y :: ys =>
    if x < y then -1
    else if y < x then 1
    else compareKeys xs ys

/-- Modelled from the spec: `String.prototype.localeCompare` with
`{ sensitivity: "base" }` belongs to the JavaScript runtime, not to the
repository; the specification describes it as a locale-aware comparison at
primary strength, for which differences purely in case or accents are of equal
weight.  This is that comparison for the root collation, which an English
locale uses: the strings are compared by their sequences of primary
weights. -/
def localeCompare (a b : Str) : Int :=
  compareKeys (a.map collationKey).flatten (b.map collationKey).flatten

/-! ## Assembly -/

/-- The test `/^#\s/.test(t)`: `t` starts with `#` followed by a character of the
class `\s`. -/
def headingRegexTest : Str → Bool
  | '#' :: c :: _ => isWhiteSpace c
  | _ => false

/-- The body of the `for` loop of `main`, after the file has been read and
normalised: the array `parts` after the pushes for one file. -/
def pushFile (parts : List Str) (relPath content : Str) : List Str :=
  let parts := parts ++ ["\n".toList]
  let startsWithHeading := headingRegexTest (trimStart content)
  let parts :=
    if !startsWithHeading then parts ++ ["# ".toList ++ relPath ++ "\n\n".toList]
    else parts
  parts ++ [trimEnd content ++ "\n".toList]

/-- The `for` loop of `main` over the sorted entries.  `readFile` is
`fs.readFile(absPath, "utf8")`, `none` when it throws; the exception leaves the
loop and `main`. -/
def assembleLoop (readFile : Path → Option Str) :
    List FileEntry → List Str → Option (List Str)
  | [], parts => some parts
  | f :: rest, parts =>
    match readFile f.absPath with
    | none => none
    | some raw =>
      let content := normalizeContent raw
      assembleLoop readFile rest (pushFile parts f.relPath content)

/-- The text `parts.join("")` that `main` hands to `fs.writeFile` when there is at
least one file: `parts` starts as `["\n"]` and then goes through the loop. -/
def assembledText (readFile : Path → Option Str) (files : List FileEntry) :
    Option Str :=
  (assembleLoop readFile files ["\n".toList]).map List.flatten

/-! ## The destination side of the file system -/

/-- The directories and regular files that exist where the output goes. -/
structure Disk where
  dirs : List Path
  files : List (Path × Str)
deriving DecidableEq, Repr

/-- The function `path.dirname` on a path of components. -/
def dirname (p : Path) : Path := p.dropLast

/-- Whether a regular file exists at `p`. -/
def Disk.isFile (d : Disk) (p : Path) : Bool := d.files.any fun e => e.1 == p

/-- The text of the regular file at `p`, if there is one. -/
def Disk.read (d : Disk) (p : Path) : Option Str := (d.files.find? fun e => e.1 == p).map Prod.snd

/-- The call `fs.mkdir(p, { recursive: true })`: `p` and all its ancestors become
directories, the existing ones are kept; it throws (`none`) when `p` or an
ancestor is a regular file. -/
def mkdirRecursive (d : Disk) (p : Path) : Option Disk :=
  if p.inits.any d.isFile then none
  else some { d with dirs := d.dirs ++ p.inits.filter fun q => decide (q ∉ d.dirs) }

/-- The call `fs.writeFile(p, text, "utf8")`: the file is created or overwritten;
it throws (`none`) when the parent of `p` is not an existing directory
(ENOENT) and when `p` is itself a directory (EISDIR). -/
def writeFile (d : Disk) (p : Path) (text : Str) : Option Disk :=
  if dirname p ∈ d.dirs ∧ p ∉ d.dirs then
    some { d with files := (p, text) :: d.files.filter fun e => e.1 != p }
  else none

/-! ## The program -/

/-- What `main` meets outside itself: the answer of `fs.stat(inDir)` (`none` when
it throws, otherwise `isDirectory()`), the tree `fs.readdir` lists below
`inDir`, `fs.readFile`, and the destination side.  All reads of a run happen
before its one write. -/
structure World where
  inDirStat : Option Bool
  entries : List Node
  readFile : Path → Option Str
  disk : Disk

/-- How a run ends: the exit code of the process and the destination side. -/
structure Outcome where
  exitCode : Nat
  disk : Disk
deriving DecidableEq, Repr

/-- The function `main`, run to the end of the process.  `argv` is
`process.argv.slice(2)` with the two arguments resolved against the working
directory; a rejected promise reaches the `catch` at the bottom of the script,
which exits with code 1. -/
def main (localeCompare : Str → Str → Int) (w : World) (argv : List Path) : Outcome :=
  match argv with
  | inDir :: outFile :: _ =>
    match w.inDirStat with
    | none => ⟨1, w.disk⟩
    | some false => ⟨1, w.disk⟩
    | some true =>
      let files := sort localeCompare (getMarkdownFiles inDir inDir [] w.entries)
      if files.length = 0 then
        match writeFile w.disk outFile [] with
        | none => ⟨1, w.disk⟩
        | some d => ⟨0, d⟩
      else
        match assembledText w.readFile files with
        | none => ⟨1, w.disk⟩
        | some text =>
          match mkdirRecursive w.disk (dirname outFile) with
          | none => ⟨1, w.disk⟩
          | some d1 =>
            match writeFile d1 outFile text with
            | none => ⟨1, d1⟩
            | some d2 => ⟨0, d2⟩
  | _ => ⟨1, w.disk⟩

/-! ## The tree of the end-to-end example -/

/-- The directory `docs` of the example, listed with `b.md` first. -/
def docsEntries : List Node :=
  [.file "b.md".toList "text".toList,
   .dir "sub".toList [.file "a.md".toList "# A\ncontent".toList]]

/-- The same directory, listed with `sub` first. -/
def docsEntriesRev : List Node :=
  [.dir "sub".toList [.file "a.md".toList "# A\ncontent".toList],
   .file "b.md".toList "text".toList]

/-- Reading the files of `docs`. -/
def docsReadFile (p : Path) : Option Str :=
  if p = ["docs".toList, "b.md".toList] then some "text".toList
  else if p = ["docs".toList, "sub".toList, "a.md".toList] then some "# A\ncontent".toList
  else none

/-- A destination side on which only the root directory exists. -/
def emptyDisk : Disk := { dirs := [[]], files := [] }

/-- The world of the example. -/
def docsWorld (entries : List Node) : World :=
  { inDirStat := some true, entries := entries, readFile := docsReadFile, disk := emptyDisk }

/-- The text of every file of the example, and the empty text elsewhere. -/
def docsRaw (p : Path) : Str := (docsReadFile p).getD []

/-- A directory holding `a.md` and `A.md`, listed in this order. -/
def caseEntries : List Node :=
  [.file "a.md".toList "x".toList, .file "A.md".toList "y".toList]

/-- The same directory, listed in the other order. -/
def caseEntriesRev : List Node :=
  [.file "A.md".toList "y".toList, .file "a.md".toList "x".toList]

/-- Reading the files of that directory. -/
def caseReadFile (p : Path) : Option Str :=
  if p = ["docs".toList, "a.md".toList] then some "x".toList
  else if p = ["docs".toList, "A.md".toList] then some "y".toList
  else none

/-- The world of that directory. -/
def caseWorld (entries : List Node) : World :=
  { inDirStat := some true, entries := entries, readFile := caseReadFile, disk := emptyDisk }

/-- Four entries in an unsorted order. -/
def sampleFiles : List FileEntry :=
  [{ absPath := ["docs".toList, "b.md".toList], relPath := "b.md".toList },
   { absPath := ["docs".toList, "sub".toList, "a.md".toList], relPath := "sub/a.md".toList },
   { absPath := ["docs".toList, "A.md".toList], relPath := "A.md".toList },
   { absPath := ["docs".toList, "a.md".toList], relPath := "a.md".toList }]

/-! ## The files of a tree, as the specification words them -/

/-- The name of a directory entry. -/
def Node.name : Node → Str
  | .file name _ => name
  | .dir name _ => name
  | .other name => name

/-- The extension test on a file name: its extension, lower-cased, is one of
`.md`, `.markdown`, `.mdx`. -/
def acceptedName (name : Str) : Bool := decide (toLowerCase (extname name) ∈ exts)

/-- The statement that `name` is a regular file of the tree, in the directory
reached from the listed one through the directories `dirs`. -/
inductive FileAt : List Node → Path → Str → Prop
  | here {entries : List Node} {name content : Str} :
      Node.file name content ∈ entries → FileAt entries [] name
  | under {entries children : List Node} {d : Str} {dirs : Path} {name : Str} :
      Node.dir d children ∈ entries → FileAt children dirs name →
      FileAt entries (d :: dirs) name

mutual
/-- The regular files below a listed directory that are not under an ignored
directory, each as the directories leading to it and its name, in the
order of a depth-first walk. -/
def listFiles : List Node → List (Path × Str)
  | [] => []
  | entry :: rest => listNode entry ++ listFiles rest
/-- The regular files one entry contributes to `listFiles`. -/
def listNode : Node → List (Path × Str)
  | .dir name children =>
    if name ∈ ignoreDirs then [] else (listFiles children).map fun f => (name :: f.1, f.2)
  | .file name _ => [([], name)]
  | .other _ => []
end

mutual
/-- No name in the tree contains the separator `/`, as on every file system. -/
def slashFree : List Node → Bool
  | [] => true
  | entry :: rest => slashFreeNode entry && slashFree rest
/-- No name in the entry or below it contains the separator `/`. -/
def slashFreeNode : Node → Bool
  | .dir name children => decide ('/' ∉ name) && slashFree children
  | .file name _ => decide ('/' ∉ name)
  | .other name => decide ('/' ∉ name)
end

mutual
/-- The names within each directory of the tree are pairwise distinct, as on
every file system. -/
def uniqueNames : List Node → Bool
  | [] => true
  | entry :: rest =>
    !(rest.any fun r => r.name == entry.name) && uniqueNode entry && uniqueNames rest
/-- The names within each directory below the entry are pairwise distinct. -/
def uniqueNode : Node → Bool
  | .dir _ children => uniqueNames children
  | .file _ _ => true
  | .other _ => true
end

/-- The method `String.prototype.split("/")`. -/
def splitSlash (s : Str) : List Str := s.splitOn '/'

/-- A tree with an ignored directory, a nested directory and files of several
extensions. -/
def sampleTree : List Node :=
  [.file "README.MD".toList "r".toList,
   .file "notes.txt".toList "n".toList,
   .other "link.md".toList,
   .dir "node_modules".toList [.file "pkg.md".toList "p".toList],
   .dir "guide".toList
     [.file "intro.mdx".toList "i".toList,
      .dir "dist".toList [.file "out.md".toList "o".toList],
      .dir "deep".toList [.file "x.markdown".toList "x".toList]]]

/-! ## The output as the specification words it -/

/-- The text the specification prescribes for one pair of a relative path and a
normalised content: one newline, the synthetic heading when the heading test
fails, the content with its trailing white space trimmed, one newline. -/
def specFragment (relPath content : Str) : Str :=
  "\n".toList ++
    (if headingRegexTest (trimStart content) = true then []
     else "# ".toList ++ relPath ++ "\n\n".toList) ++
    trimEnd content ++ "\n".toList

/-- The text the specification prescribes for a sequence of pairs: the leading
newline, then the fragments in sequence order. -/
def specDocument (pairs : List (Str × Str)) : Str :=
  "\n".toList ++ (pairs.map fun p => specFragment p.1 p.2).flatten

/-! ## Normalisation: the byte-order mark and line endings -/

theorem count_replaceCRLF (c : Char) (hCR : c ≠ CR) (hLF : c ≠ LF) :
    ∀ s : Str, (replaceCRLF s).count c = s.count c
  | [] => by simp [replaceCRLF]
  | [d] => by simp [replaceCRLF]
  | a :: d :: rest => by
    have ih1 := count_replaceCRLF c hCR hLF rest
    have ih2 := count_replaceCRLF c hCR hLF (d :: rest)
    rw [replaceCRLF]
    split
    · rename_i h
      obtain ⟨rfl, rfl⟩ := h
      rw [List.count_cons, List.count_cons, List.count_cons, ih1]
      simp [Ne.symm hCR, Ne.symm hLF]
    · rw [List.count_cons, ih2, List.count_cons (a := c) (b := a)]

theorem replaceCRLF_head (s : Str) (t : Str) (h : replaceCRLF s = LF :: t) :
    (∃ r, s = LF :: r) ∨ ∃ r, s = CR :: LF :: r := by
  match s, h with
  | [], h => simp [replaceCRLF] at h
  | [d], h =>
    simp only [replaceCRLF, List.cons.injEq] at h
    exact Or.inl ⟨[], by rw [h.1]⟩
  | a :: d :: rest, h =>
    rw [replaceCRLF] at h
    split at h
    · rename_i hc
      exact Or.inr ⟨rest, by rw [hc.1, hc.2]⟩
    · simp only [List.cons.injEq] at h
      exact Or.inl ⟨d :: rest, by rw [h.1]⟩

theorem replaceCRLF_no_crlf :
    ∀ s : Str, ¬ [CR, CR, LF] <:+: s → ¬ [CR, LF] <:+: replaceCRLF s
  | [], _ => by simp [replaceCRLF]
  | [d], _ => by
    simp only [replaceCRLF]
    intro h
    have := h.length_le
    simp at this
  | a :: d :: rest, hs => by
    have hs1 : ¬ [CR, CR, LF] <:+: rest := fun h =>
      hs (h.trans ((List.suffix_cons d rest).isInfix.trans (List.suffix_cons a _).isInfix))
    have hs2 : ¬ [CR, CR, LF] <:+: d :: rest := fun h =>
      hs (h.trans (List.suffix_cons a _).isInfix)
    have ih1 := replaceCRLF_no_crlf rest hs1
    have ih2 := replaceCRLF_no_crlf (d :: rest) hs2
    rw [replaceCRLF]
    split
    · rw [List.infix_cons_iff]
      rintro (h | h)
      · rw [List.cons_prefix_cons] at h
        exact absurd h.1 (by decide)
      · exact ih1 h
    · rename_i hc
      rw [List.infix_cons_iff]
      rintro (h | h)
      · rw [List.cons_prefix_cons] at h
        obtain ⟨rfl, h⟩ := h
        obtain ⟨t, ht⟩ : ∃ t, replaceCRLF (d :: rest) = LF :: t := by
          obtain ⟨t, ht⟩ := h
          exact ⟨t, by simpa using ht.symm⟩
        rcases replaceCRLF_head _ _ ht with ⟨r, hr⟩ | ⟨r, hr⟩
        · simp only [List.cons.injEq] at hr
          exact hc ⟨rfl, hr.1⟩
        · simp only [List.cons.injEq] at hr
          apply hs
          rw [hr.1, hr.2]
          exact ⟨[], r, by simp⟩
      · exact ih2 h

theorem replaceCRLF_cons_BOM (t : Str) : replaceCRLF (BOM :: t) = BOM :: replaceCRLF t := by
  cases t with
  | nil => simp [replaceCRLF]
  | cons d rest =>
    rw [replaceCRLF]
    have : ¬ (BOM = CR ∧ d = LF) := fun h => absurd h.1 (by decide)
    simp [this]

theorem stripBOM_suffix (s : Str) : stripBOM s <:+ s := by
  cases s with
  | nil => exact List.suffix_refl _
  | cons c cs =>
    simp only [stripBOM]
    split
    · exact List.suffix_cons c cs
    · exact List.suffix_refl _

theorem normalizeContent_eq (s : Str) : normalizeContent s = replaceCRLF (stripBOM s) := by
  unfold normalizeContent
  split
  · rename_i h
    subst h
    simp [stripBOM, replaceCRLF]
  · rfl

/-- C8: on a string that starts with a byte-order mark, `normalizeContent` removes
exactly that one character and rewrites the line endings of the rest: the
result is the rest `t` with CRLF replaced, it has as many byte-order marks as
`t`, a second mark at the start of `t` stays in front; on a string `s` that does
not start with a byte-order mark only the line endings change and no mark is
removed. -/
theorem normalizeContent_leading_BOM (t s : Str) (hs : s.head? ≠ some BOM) :
    normalizeContent (BOM :: t) = replaceCRLF t ∧
    (normalizeContent (BOM :: t)).count BOM = t.count BOM ∧
    normalizeContent (BOM :: BOM :: t) = BOM :: replaceCRLF t ∧
    normalizeContent s = replaceCRLF s ∧
    (normalizeContent s).count BOM = s.count BOM := by
  have h1 : normalizeContent (BOM :: t) = replaceCRLF t := by
    simp [normalizeContent_eq, stripBOM]
  have h2 : normalizeContent s = replaceCRLF s := by
    rw [normalizeContent_eq]
    cases s with
    | nil => rfl
    | cons c cs =>
      have : c ≠ BOM := fun h => hs (by simp [h])
      simp [stripBOM, this]
  refine ⟨h1, ?_, ?_, h2, ?_⟩
  · rw [h1, count_replaceCRLF BOM (by decide) (by decide)]
  · simp [normalizeContent_eq, stripBOM, replaceCRLF_cons_BOM]
  · rw [h2, count_replaceCRLF BOM (by decide) (by decide)]

theorem normalizeContent_leading_BOM_witness :
    "a\r\nb".toList.head? ≠ some BOM ∧
    normalizeContent (BOM :: "x\r\ny".toList) = replaceCRLF "x\r\ny".toList ∧
    (normalizeContent (BOM :: "x\r\ny".toList)).count BOM = "x\r\ny".toList.count BOM ∧
    normalizeContent (BOM :: BOM :: "x\r\ny".toList) = BOM :: replaceCRLF "x\r\ny".toList ∧
    normalizeContent "a\r\nb".toList = replaceCRLF "a\r\nb".toList ∧
    (normalizeContent "a\r\nb".toList).count BOM = "a\r\nb".toList.count BOM :=
  ⟨by decide, normalizeContent_leading_BOM "x\r\ny".toList "a\r\nb".toList (by decide)⟩

/-- C9, as stated, fails: the input CR CR LF is normalised to CR LF, so the
result of `normalizeContent` does contain a CRLF sequence. -/
theorem normalizeContent_crlf_counterexample :
    normalizeContent [CR, CR, LF] = [CR, LF] ∧
    ¬ (∀ s : Str, ¬ [CR, LF] <:+: normalizeContent s) := by
  have h : normalizeContent [CR, CR, LF] = [CR, LF] := by decide
  refine ⟨h, fun hall => hall [CR, CR, LF] ?_⟩
  rw [h]

/-- C9, amended: when no CRLF of the input is directly preceded by another
carriage return (the input has no CR CR LF), the result of `normalizeContent`
contains no CRLF sequence; and `line1\r\nline2` becomes `line1\nline2`, in
which no carriage return is left. -/
theorem normalizeContent_no_crlf (s : Str) (h : ¬ [CR, CR, LF] <:+: s) :
    ¬ [CR, LF] <:+: normalizeContent s ∧
    normalizeContent "line1\r\nline2".toList = "line1\nline2".toList ∧
    CR ∉ normalizeContent "line1\r\nline2".toList := by
  refine ⟨?_, by decide, by decide⟩
  rw [normalizeContent_eq]
  exact replaceCRLF_no_crlf _ fun hi => h (hi.trans (stripBOM_suffix s).isInfix)

theorem normalizeContent_no_crlf_witness :
    ¬ [CR, CR, LF] <:+: "a\r\n\r\nb\r".toList ∧
    ¬ [CR, LF] <:+: normalizeContent "a\r\n\r\nb\r".toList :=
  ⟨by decide, (normalizeContent_no_crlf "a\r\n\r\nb\r".toList (by decide)).1⟩

/-! ## The heading test -/

theorem headingRegexTest_iff (t : Str) :
    headingRegexTest t = true ↔ ∃ c rest, t = '#' :: c :: rest ∧ isWhiteSpace c = true := by
  constructor
  · intro h
    unfold headingRegexTest at h
    split at h
    · rename_i c rest
      exact ⟨c, rest, rfl, h⟩
    · exact absurd h (by decide)
  · rintro ⟨c, rest, rfl, hc⟩
    simpa [headingRegexTest] using hc

theorem pushFile_eq (parts : List Str) (relPath content : Str) :
    pushFile parts relPath content =
      parts ++ (if headingRegexTest (trimStart content) = true then
        ["\n".toList, trimEnd content ++ "\n".toList]
      else ["\n".toList, "# ".toList ++ relPath ++ "\n\n".toList,
        trimEnd content ++ "\n".toList]) := by
  unfold pushFile
  cases headingRegexTest (trimStart content) <;> simp

/-- C2, as stated, fails: the content `#`, tab, `Title` does not begin with `#`
followed by a space, yet no synthetic heading is emitted for it. -/
theorem heading_counterexample :
    ¬ ("# ".toList <+: trimStart "#\tTitle".toList) ∧
    pushFile [] "a.md".toList "#\tTitle".toList = ["\n".toList, "#\tTitle\n".toList] := by
  constructor <;> decide

/-- C2, amended: the loop body emits the newline, the synthetic heading
`# <relPath>` with its blank line and the trimmed content exactly when the
content, with leading white space trimmed, does not begin with `#` followed by
a white space character (any character of the class `\s`: a space, a tab, a
line break); otherwise it emits the newline and the trimmed content only.
`Hello world` gets the heading and `# Title\nBody` gets none. -/
theorem heading_emitted_iff (parts : List Str) (relPath content : Str) :
    (pushFile parts relPath content =
        parts ++ ["\n".toList, "# ".toList ++ relPath ++ "\n\n".toList,
          trimEnd content ++ "\n".toList] ↔
      ¬ ∃ c rest, trimStart content = '#' :: c :: rest ∧ isWhiteSpace c = true) ∧
    (pushFile parts relPath content = parts ++ ["\n".toList, trimEnd content ++ "\n".toList] ↔
      ∃ c rest, trimStart content = '#' :: c :: rest ∧ isWhiteSpace c = true) ∧
    pushFile [] relPath "Hello world".toList =
      ["\n".toList, "# ".toList ++ relPath ++ "\n\n".toList, "Hello world\n".toList] ∧
    pushFile [] relPath "# Title\nBody".toList = ["\n".toList, "# Title\nBody\n".toList] := by
  rw [← headingRegexTest_iff, pushFile_eq]
  refine ⟨?_, ?_, ?_, ?_⟩
  · cases headingRegexTest (trimStart content)
    · simp
    · simp only [if_true, not_true_eq_false, iff_false]
      intro he
      have := congrArg List.length he
      simp at this
  · cases headingRegexTest (trimStart content)
    · simp only [Bool.false_eq_true, if_false, iff_false]
      intro he
      have := congrArg List.length he
      simp at this
    · simp
  · rw [pushFile_eq]
    have h1 : headingRegexTest (trimStart "Hello world".toList) = false := by decide
    have h2 : trimEnd "Hello world".toList ++ "\n".toList = "Hello world\n".toList := by decide
    simp only [h1, h2]
    simp
  · rw [pushFile_eq]
    have h1 : headingRegexTest (trimStart "# Title\nBody".toList) = true := by decide
    have h2 : trimEnd "# Title\nBody".toList ++ "\n".toList = "# Title\nBody\n".toList := by decide
    simp only [h1, h2]
    simp

/-! ## Assembly -/

theorem flatten_pushFile (parts : List Str) (relPath content : Str) :
    (pushFile parts relPath content).flatten = parts.flatten ++ specFragment relPath content := by
  rw [pushFile_eq, specFragment]
  cases headingRegexTest (trimStart content) <;> simp

theorem assembleLoop_flatten (readFile : Path → Option Str) (raw : Path → Str) :
    ∀ (files : List FileEntry) (parts : List Str),
      (∀ f ∈ files, readFile f.absPath = some (raw f.absPath)) →
      (assembleLoop readFile files parts).map List.flatten =
        some (parts.flatten ++
          (files.map fun f => specFragment f.relPath (normalizeContent (raw f.absPath))).flatten)
  | [], parts, _ => by simp [assembleLoop]
  | f :: rest, parts, h => by
    have hf : readFile f.absPath = some (raw f.absPath) := h f (List.mem_cons_self _ _)
    have ih := assembleLoop_flatten readFile raw rest
      (pushFile parts f.relPath (normalizeContent (raw f.absPath)))
      (fun g hg => h g (List.mem_cons_of_mem _ hg))
    rw [assembleLoop, hf]
    simp only [ih, flatten_pushFile, List.map_cons, List.flatten_cons, List.append_assoc]

theorem assembledText_eq (readFile : Path → Option Str) (raw : Path → Str)
    (files : List FileEntry) (h : ∀ f ∈ files, readFile f.absPath = some (raw f.absPath)) :
    assembledText readFile files =
      some (specDocument (files.map fun f => (f.relPath, normalizeContent (raw f.absPath)))) := by
  rw [assembledText, assembleLoop_flatten readFile raw files _ h, specDocument]
  simp [Function.comp_def]

/-- C1: when the input directory is accessible, the sorted sequence of entries is
not empty and every file can be read, the text `main` hands to its one
`fs.writeFile` is the leading newline followed, for each entry in sequence
order, by one newline, the synthetic heading when the heading test fails, the
normalised content with trailing white space trimmed, and one newline, and
nothing else; the run creates the parent directory, writes that text, and
ends with code 0 when both succeed. -/
theorem main_writes_specDocument (cmp : Str → Str → Int) (w : World) (inDir outFile : Path)
    (more : List Path) (raw : Path → Str)
    (hstat : w.inDirStat = some true)
    (hne : sort cmp (getMarkdownFiles inDir inDir [] w.entries) ≠ [])
    (hread : ∀ f ∈ sort cmp (getMarkdownFiles inDir inDir [] w.entries),
      w.readFile f.absPath = some (raw f.absPath)) :
    assembledText w.readFile (sort cmp (getMarkdownFiles inDir inDir [] w.entries)) =
      some (specDocument ((sort cmp (getMarkdownFiles inDir inDir [] w.entries)).map
        fun f => (f.relPath, normalizeContent (raw f.absPath)))) ∧
    main cmp w (inDir :: outFile :: more) =
      match mkdirRecursive w.disk (dirname outFile) with
      | none => ⟨1, w.disk⟩
      | some d1 =>
        match writeFile d1 outFile
          (specDocument ((sort cmp (getMarkdownFiles inDir inDir [] w.entries)).map
            fun f => (f.relPath, normalizeContent (raw f.absPath)))) with
        | none => ⟨1, d1⟩
        | some d2 => ⟨0, d2⟩ := by
  have ht := assembledText_eq w.readFile raw _ hread
  refine ⟨ht, ?_⟩
  have hlen : (sort cmp (getMarkdownFiles inDir inDir [] w.entries)).length ≠ 0 := by
    simpa using hne
  simp only [main, hstat, hlen, if_false, ht]

/-! ## Sorting -/

theorem orderedInsert_perm (cmp : Str → Str → Int) (a : FileEntry) :
    ∀ l : List FileEntry, (orderedInsert cmp a l).Perm (a :: l)
  | [] => List.Perm.refl _
  | b :: l => by
    rw [orderedInsert]
    split
    · exact List.Perm.refl _
    · exact ((orderedInsert_perm cmp a l).cons b).trans (List.Perm.swap a b l)

theorem sort_perm (cmp : Str → Str → Int) : ∀ l : List FileEntry, (sort cmp l).Perm l
  | [] => List.Perm.refl _
  | a :: l => by
    rw [sort]
    exact (orderedInsert_perm cmp a _).trans ((sort_perm cmp l).cons a)

theorem orderedInsert_pairwise (cmp : Str → Str → Int)
    (htotal : ∀ x y, cmp x y ≤ 0 ∨ cmp y x ≤ 0)
    (htrans : ∀ x y z, cmp x y ≤ 0 → cmp y z ≤ 0 → cmp x z ≤ 0) (a : FileEntry) :
    ∀ l : List FileEntry, l.Pairwise (fun x y => cmp x.relPath y.relPath ≤ 0) →
      (orderedInsert cmp a l).Pairwise (fun x y => cmp x.relPath y.relPath ≤ 0)
  | [], _ => by simp [orderedInsert]
  | b :: l, h => by
    rw [orderedInsert]
    rw [List.pairwise_cons] at h
    split
    · rename_i hab
      refine List.Pairwise.cons ?_ (List.Pairwise.cons h.1 h.2)
      intro x hx
      rcases List.mem_cons.1 hx with rfl | hx
      · exact hab
      · exact htrans _ _ _ hab (h.1 x hx)
    · rename_i hab
      refine List.Pairwise.cons ?_ (orderedInsert_pairwise cmp htotal htrans a l h.2)
      intro x hx
      rcases List.mem_cons.1 ((orderedInsert_perm cmp a l).mem_iff.1 hx) with rfl | hx
      · exact (htotal _ _).resolve_left hab
      · exact h.1 x hx

theorem sort_pairwise (cmp : Str → Str → Int)
    (htotal : ∀ x y, cmp x y ≤ 0 ∨ cmp y x ≤ 0)
    (htrans : ∀ x y z, cmp x y ≤ 0 → cmp y z ≤ 0 → cmp x z ≤ 0) :
    ∀ l : List FileEntry, (sort cmp l).Pairwise (fun x y => cmp x.relPath y.relPath ≤ 0)
  | [] => by simp [sort]
  | a :: l => by
    rw [sort]
    exact orderedInsert_pairwise cmp htotal htrans a _ (sort_pairwise cmp htotal htrans l)

theorem compareKeys_total : ∀ a b : List Nat, compareKeys a b ≤ 0 ∨ compareKeys b a ≤ 0
  | [], [] => by simp [compareKeys]
  | [], _ :: _ => by simp [compareKeys]
  | _ :: _, [] => by simp [compareKeys]
  | x :: xs, y :: ys => by
    have ih := compareKeys_total xs ys
    rw [compareKeys, compareKeys]
    split_ifs <;> omega

theorem compareKeys_trans : ∀ a b c : List Nat,
    compareKeys a b ≤ 0 → compareKeys b c ≤ 0 → compareKeys a c ≤ 0
  | [], _, [] => by simp [compareKeys]
  | [], _, _ :: _ => by simp [compareKeys]
  | _ :: _, [], _ => by simp [compareKeys]
  | _ :: _, _ :: _, [] => by simp [compareKeys]
  | x :: xs, y :: ys, z :: zs => by
    have ih := compareKeys_trans xs ys zs
    rw [compareKeys, compareKeys, compareKeys]
    split_ifs <;> omega

theorem localeCompare_total (a b : Str) : localeCompare a b ≤ 0 ∨ localeCompare b a ≤ 0 :=
  compareKeys_total _ _

theorem localeCompare_trans (a b c : Str) :
    localeCompare a b ≤ 0 → localeCompare b c ≤ 0 → localeCompare a c ≤ 0 :=
  compareKeys_trans _ _ _

/-- C5: the sequence `main` assembles from is a permutation of the discovered
entries, so no entry is dropped or duplicated; for a consistent comparator
(total and transitive, as a collation is) every adjacent pair of it is in
non-decreasing order of `relPath`; and each entry contributes exactly one
fragment to the assembled text. -/
theorem sort_is_sorted_permutation (cmp : Str → Str → Int) (files : List FileEntry)
    (readFile : Path → Option Str) (raw : Path → Str)
    (htotal : ∀ x y, cmp x y ≤ 0 ∨ cmp y x ≤ 0)
    (htrans : ∀ x y z, cmp x y ≤ 0 → cmp y z ≤ 0 → cmp x z ≤ 0)
    (hread : ∀ f ∈ files, readFile f.absPath = some (raw f.absPath)) :
    (sort cmp files).Perm files ∧
    (∀ e, (sort cmp files).count e = files.count e) ∧
    (sort cmp files).Chain' (fun a b => cmp a.relPath b.relPath ≤ 0) ∧
    assembledText readFile (sort cmp files) =
      some ("\n".toList ++ ((sort cmp files).map fun f =>
        specFragment f.relPath (normalizeContent (raw f.absPath))).flatten) := by
  refine ⟨sort_perm cmp files, fun e => (sort_perm cmp files).count_eq e,
    (sort_pairwise cmp htotal htrans files).chain', ?_⟩
  rw [assembledText_eq readFile raw _ fun f hf => hread f ((sort_perm cmp files).mem_iff.1 hf),
    specDocument]
  simp [Function.comp_def]

theorem sort_is_sorted_permutation_witness :
    (∀ x y, localeCompare x y ≤ 0 ∨ localeCompare y x ≤ 0) ∧
    (sort localeCompare sampleFiles).Perm sampleFiles ∧
    (sort localeCompare sampleFiles).Chain'
      (fun a b => localeCompare a.relPath b.relPath ≤ 0) ∧
    (sort localeCompare sampleFiles).map FileEntry.relPath =
      ["A.md".toList, "a.md".toList, "b.md".toList, "sub/a.md".toList] :=
  ⟨localeCompare_total,
   (sort_is_sorted_permutation localeCompare sampleFiles (fun p => some (docsRaw p)) docsRaw
      localeCompare_total localeCompare_trans (fun _ _ => rfl)).1,
   (sort_is_sorted_permutation localeCompare sampleFiles (fun p => some (docsRaw p)) docsRaw
      localeCompare_total localeCompare_trans (fun _ _ => rfl)).2.2.1,
   by decide⟩

theorem main_writes_specDocument_witness :
    sort localeCompare (getMarkdownFiles ["docs".toList] ["docs".toList] []
      (docsWorld docsEntries).entries) ≠ [] ∧
    assembledText (docsWorld docsEntries).readFile
        (sort localeCompare (getMarkdownFiles ["docs".toList] ["docs".toList] []
          (docsWorld docsEntries).entries)) =
      some (specDocument ((sort localeCompare (getMarkdownFiles ["docs".toList]
        ["docs".toList] [] (docsWorld docsEntries).entries)).map
          fun f => (f.relPath, normalizeContent (docsRaw f.absPath)))) :=
  ⟨by decide,
   (main_writes_specDocument localeCompare (docsWorld docsEntries) ["docs".toList]
      ["out.md".toList] [] docsRaw rfl (by decide) (by decide)).1⟩

/-! ## The order of emission -/

theorem sort_eq_of_perm (cmp : Str → Str → Int) (l₁ l₂ : List FileEntry)
    (htotal : ∀ x y, cmp x y ≤ 0 ∨ cmp y x ≤ 0)
    (htrans : ∀ x y z, cmp x y ≤ 0 → cmp y z ≤ 0 → cmp x z ≤ 0)
    (hperm : l₁.Perm l₂)
    (hties : ∀ a ∈ l₁, ∀ b ∈ l₁,
      cmp a.relPath b.relPath ≤ 0 → cmp b.relPath a.relPath ≤ 0 → a = b) :
    sort cmp l₁ = sort cmp l₂ := by
  let r : FileEntry → FileEntry → Prop :=
    fun a b => a ∈ l₁ ∧ b ∈ l₁ ∧ cmp a.relPath b.relPath ≤ 0
  haveI : IsAntisymm FileEntry r :=
    ⟨fun a b hab hba => hties a hab.1 b hab.2.1 hab.2.2 hba.2.2⟩
  have h1 : (sort cmp l₁).Pairwise r :=
    (sort_pairwise cmp htotal htrans l₁).imp_of_mem fun ha hb hab =>
      ⟨(sort_perm cmp l₁).mem_iff.1 ha, (sort_perm cmp l₁).mem_iff.1 hb, hab⟩
  have h2 : (sort cmp l₂).Pairwise r :=
    (sort_pairwise cmp htotal htrans l₂).imp_of_mem fun ha hb hab =>
      ⟨hperm.mem_iff.2 ((sort_perm cmp l₂).mem_iff.1 ha),
        hperm.mem_iff.2 ((sort_perm cmp l₂).mem_iff.1 hb), hab⟩
  exact List.eq_of_perm_of_sorted
    (((sort_perm cmp l₁).trans hperm).trans (sort_perm cmp l₂).symm) h1 h2

theorem assembledText_eq_of_perm (cmp : Str → Str → Int) (readFile : Path → Option Str)
    (l₁ l₂ : List FileEntry)
    (htotal : ∀ x y, cmp x y ≤ 0 ∨ cmp y x ≤ 0)
    (htrans : ∀ x y z, cmp x y ≤ 0 → cmp y z ≤ 0 → cmp x z ≤ 0)
    (hperm : l₁.Perm l₂)
    (hties : ∀ a ∈ l₁, ∀ b ∈ l₁,
      cmp a.relPath b.relPath ≤ 0 → cmp b.relPath a.relPath ≤ 0 → a = b) :
    assembledText readFile (sort cmp l₁) = assembledText readFile (sort cmp l₂) := by
  rw [sort_eq_of_perm cmp l₁ l₂ htotal htrans hperm hties]

/-- C3 on the code: a directory holds `a.md` and `A.md`, two entries with distinct
relative paths that the comparator ranks equal.  The two listing orders give
the same entries, yet `main` writes two different texts: the stable sort keeps
each listing order. -/
theorem main_depends_on_listing_order :
    (getMarkdownFiles ["docs".toList] ["docs".toList] [] caseEntries).Perm
      (getMarkdownFiles ["docs".toList] ["docs".toList] [] caseEntriesRev) ∧
    ((getMarkdownFiles ["docs".toList] ["docs".toList] [] caseEntries).map
      FileEntry.relPath).Nodup ∧
    localeCompare "a.md".toList "A.md".toList = 0 ∧
    main localeCompare (caseWorld caseEntries) [["docs".toList], ["out.md".toList]] =
      ⟨0, ⟨[[]], [(["out.md".toList], "\n\n# a.md\n\nx\n\n# A.md\n\ny\n".toList)]⟩⟩ ∧
    main localeCompare (caseWorld caseEntriesRev) [["docs".toList], ["out.md".toList]] =
      ⟨0, ⟨[[]], [(["out.md".toList], "\n\n# A.md\n\ny\n\n# a.md\n\nx\n".toList)]⟩⟩ := by
  refine ⟨?_, by decide, by decide, by decide, by decide⟩
  have h1 : getMarkdownFiles ["docs".toList] ["docs".toList] [] caseEntries =
      [⟨["docs".toList, "a.md".toList], "a.md".toList⟩,
       ⟨["docs".toList, "A.md".toList], "A.md".toList⟩] := by decide
  have h2 : getMarkdownFiles ["docs".toList] ["docs".toList] [] caseEntriesRev =
      [⟨["docs".toList, "A.md".toList], "A.md".toList⟩,
       ⟨["docs".toList, "a.md".toList], "a.md".toList⟩] := by decide
  rw [h1, h2]
  exact List.Perm.swap _ _ _

/-- C4, as stated, fails: for the tree of the example the sorted sequence is
`b.md`, then `sub/a.md`, and the text written starts with the heading of
`b.md`; it is not the text that has the content of `sub/a.md` first. -/
theorem docs_example_counterexample :
    (sort localeCompare (getMarkdownFiles ["docs".toList] ["docs".toList] []
      docsEntries)).map FileEntry.relPath = ["b.md".toList, "sub/a.md".toList] ∧
    (main localeCompare (docsWorld docsEntries)
      [["docs".toList], ["out.md".toList]]).disk.read ["out.md".toList] =
      some "\n\n# b.md\n\ntext\n\n# A\ncontent\n".toList ∧
    (main localeCompare (docsWorld docsEntries)
      [["docs".toList], ["out.md".toList]]).disk.read ["out.md".toList] ≠
      some "\n\n# A\ncontent\n\n# b.md\n\ntext\n".toList := by
  refine ⟨by decide, by decide, by decide⟩

/-- C4, amended: for the tree with root `docs` holding `b.md` with content `text`
and `sub/a.md` with content `# A\ncontent`, whichever way the root is listed
and for every comparator that ranks `b.md` before `sub/a.md` (as a
case-insensitive comparison does, `b` coming before `s`), the pipeline ends
with code 0 and writes: the leading newline, a newline, the heading
`# b.md`, a blank line, `text`, a newline, a newline, and the content of
`sub/a.md` as it is, with no injected heading, and a final newline; `b.md` is
ordered before `sub/a.md`. -/
theorem docs_example (cmp : Str → Str → Int) (entries : List Node)
    (hlt : cmp "b.md".toList "sub/a.md".toList ≤ 0)
    (hgt : ¬ cmp "sub/a.md".toList "b.md".toList ≤ 0)
    (hentries : entries = docsEntries ∨ entries = docsEntriesRev) :
    (sort cmp (getMarkdownFiles ["docs".toList] ["docs".toList] [] entries)).map
      FileEntry.relPath = ["b.md".toList, "sub/a.md".toList] ∧
    main cmp (docsWorld entries) [["docs".toList], ["out.md".toList]] =
      ⟨0, ⟨[[]], [(["out.md".toList], "\n\n# b.md\n\ntext\n\n# A\ncontent\n".toList)]⟩⟩ := by
  have hb : (⟨["docs".toList, "b.md".toList], "b.md".toList⟩ : FileEntry).relPath =
      "b.md".toList := rfl
  have ha : (⟨["docs".toList, "sub".toList, "a.md".toList], "sub/a.md".toList⟩ :
      FileEntry).relPath = "sub/a.md".toList := rfl
  have hsorted : sort cmp (getMarkdownFiles ["docs".toList] ["docs".toList] [] entries) =
      [⟨["docs".toList, "b.md".toList], "b.md".toList⟩,
       ⟨["docs".toList, "sub".toList, "a.md".toList], "sub/a.md".toList⟩] := by
    rcases hentries with rfl | rfl
    · have h : getMarkdownFiles ["docs".toList] ["docs".toList] [] docsEntries =
          [⟨["docs".toList, "b.md".toList], "b.md".toList⟩,
           ⟨["docs".toList, "sub".toList, "a.md".toList], "sub/a.md".toList⟩] := by decide
      rw [h]
      simp only [sort, orderedInsert, hb, ha, hlt, if_true]
    · have h : getMarkdownFiles ["docs".toList] ["docs".toList] [] docsEntriesRev =
          [⟨["docs".toList, "sub".toList, "a.md".toList], "sub/a.md".toList⟩,
           ⟨["docs".toList, "b.md".toList], "b.md".toList⟩] := by decide
      rw [h]
      simp only [sort, orderedInsert, hb, ha, hgt, if_false]
  have htext : assembledText docsReadFile
      [⟨["docs".toList, "b.md".toList], "b.md".toList⟩,
       ⟨["docs".toList, "sub".toList, "a.md".toList], "sub/a.md".toList⟩] =
      some "\n\n# b.md\n\ntext\n\n# A\ncontent\n".toList := by decide
  refine ⟨by rw [hsorted]; rfl, ?_⟩
  have hw : ∀ text : Str, (match mkdirRecursive emptyDisk (dirname ["out.md".toList]) with
      | none => (⟨1, emptyDisk⟩ : Outcome)
      | some d1 =>
        match writeFile d1 ["out.md".toList] text with
        | none => ⟨1, d1⟩
        | some d2 => ⟨0, d2⟩) = ⟨0, ⟨[[]], [(["out.md".toList], text)]⟩⟩ := by
    intro text
    rfl
  simp only [main, docsWorld, hsorted, htext]
  exact hw _

theorem docs_example_witness :
    localeCompare "b.md".toList "sub/a.md".toList ≤ 0 ∧
    ¬ localeCompare "sub/a.md".toList "b.md".toList ≤ 0 ∧
    main localeCompare (docsWorld docsEntriesRev) [["docs".toList], ["out.md".toList]] =
      ⟨0, ⟨[[]], [(["out.md".toList], "\n\n# b.md\n\ntext\n\n# A\ncontent\n".toList)]⟩⟩ :=
  ⟨by decide, by decide,
   (docs_example localeCompare docsEntriesRev (by decide) (by decide) (Or.inr rfl)).2⟩

/-! ## The write -/

theorem main_no_files_missing_parent (cmp : Str → Str → Int) (w : World)
    (inDir outFile : Path) (more : List Path)
    (hstat : w.inDirStat = some true)
    (hnone : getMarkdownFiles inDir inDir [] w.entries = [])
    (hparent : dirname outFile ∉ w.disk.dirs) :
    main cmp w (inDir :: outFile :: more) = ⟨1, w.disk⟩ := by
  simp [main, hstat, hnone, sort, writeFile, hparent]

/-- C10 on the code: with no Markdown file under the input directory and a
destination `out/all.md` whose parent `out` does not exist, `main` goes
straight to `fs.writeFile`, which fails; the run ends with code 1 and no file
is created.  With one Markdown file and the same destination, the other path
creates `out` first and the run ends with code 0. -/
theorem main_empty_tree_missing_parent :
    main localeCompare
        { inDirStat := some true, entries := [.file "notes.txt".toList "n".toList],
          readFile := fun _ => none, disk := emptyDisk }
        [["docs".toList], ["out".toList, "all.md".toList]] = ⟨1, emptyDisk⟩ ∧
    emptyDisk.read ["out".toList, "all.md".toList] = none ∧
    main localeCompare
        { inDirStat := some true, entries := [.file "b.md".toList "text".toList],
          readFile := docsReadFile, disk := emptyDisk }
        [["docs".toList], ["out".toList, "all.md".toList]] =
      ⟨0, ⟨[[], ["out".toList]],
        [(["out".toList, "all.md".toList], "\n\n# b.md\n\ntext\n".toList)]⟩⟩ := by
  refine ⟨by decide, by decide, by decide⟩

/-! ## The walk -/

theorem relative_append (base comps : Path) : relative base (base ++ comps) = comps := by
  induction base with
  | nil => cases comps <;> simp [relative]
  | cons f fs ih => simp [relative, ih]

mutual
theorem getMarkdownFiles_eq_listFiles : ∀ (entries : List Node) (dir base : Path)
    (files : List FileEntry),
    getMarkdownFiles dir base files entries =
      files ++ ((listFiles entries).filter fun f => acceptedName f.2).map fun f =>
        ⟨dir ++ f.1 ++ [f.2], joinSlash (relative base (dir ++ f.1 ++ [f.2]))⟩
  | [], dir, base, files => by simp [getMarkdownFiles, listFiles]
  | e :: rest, dir, base, files => by
    rw [getMarkdownFiles, getMarkdownFiles_eq_listFiles rest, visitEntry_eq_listNode e]
    simp [listFiles]
theorem visitEntry_eq_listNode : ∀ (e : Node) (dir base : Path) (files : List FileEntry),
    visitEntry dir base files e =
      files ++ ((listNode e).filter fun f => acceptedName f.2).map fun f =>
        ⟨dir ++ f.1 ++ [f.2], joinSlash (relative base (dir ++ f.1 ++ [f.2]))⟩
  | .dir name children, dir, base, files => by
    rw [visitEntry, listNode]
    split
    · simp
    · rw [getMarkdownFiles_eq_listFiles children]
      simp [List.filter_map, Function.comp_def]
  | .file name content, dir, base, files => by
    rw [visitEntry, listNode]
    by_cases h : toLowerCase (extname name) ∈ exts
    · simp [h, acceptedName]
    · simp [h, acceptedName]
  | .other name, dir, base, files => by
    simp [visitEntry, listNode]
end

theorem FileAt.mono {l₁ l₂ : List Node} {dirs : Path} {name : Str}
    (hsub : ∀ e ∈ l₁, e ∈ l₂) (h : FileAt l₁ dirs name) : FileAt l₂ dirs name := by
  cases h with
  | here hm => exact FileAt.here (hsub _ hm)
  | under hm ht => exact FileAt.under (hsub _ hm) ht

mutual
theorem fileAt_of_mem_listFiles : ∀ (entries : List Node) (f : Path × Str),
    f ∈ listFiles entries → FileAt entries f.1 f.2 ∧ ∀ d ∈ f.1, d ∉ ignoreDirs
  | [], f, h => by simp [listFiles] at h
  | e :: rest, f, h => by
    rw [listFiles, List.mem_append] at h
    rcases h with h | h
    · have := fileAt_of_mem_listNode e f h
      exact ⟨this.1 (e :: rest) (List.mem_cons_self _ _), this.2⟩
    · have := fileAt_of_mem_listFiles rest f h
      exact ⟨this.1.mono fun x hx => List.mem_cons_of_mem _ hx, this.2⟩
theorem fileAt_of_mem_listNode : ∀ (e : Node) (f : Path × Str),
    f ∈ listNode e →
      (∀ entries : List Node, e ∈ entries → FileAt entries f.1 f.2) ∧
      ∀ d ∈ f.1, d ∉ ignoreDirs
  | .dir name children, f, h => by
    rw [listNode] at h
    split at h
    · simp at h
    · rename_i hname
      rw [List.mem_map] at h
      obtain ⟨g, hg, rfl⟩ := h
      have := fileAt_of_mem_listFiles children g hg
      refine ⟨fun entries he => FileAt.under he this.1, ?_⟩
      intro d hd
      rcases List.mem_cons.1 hd with rfl | hd
      · exact hname
      · exact this.2 d hd
  | .file name content, f, h => by
    rw [listNode, List.mem_singleton] at h
    subst h
    exact ⟨fun entries he => FileAt.here he, by simp⟩
  | .other name, f, h => by simp [listNode] at h
end

theorem mem_listFiles_of_mem_listNode (f : Path × Str) (e : Node) :
    ∀ entries : List Node, e ∈ entries → f ∈ listNode e → f ∈ listFiles entries
  | [], he, _ => by simp at he
  | x :: rest, he, hf => by
    rw [listFiles, List.mem_append]
    rcases List.mem_cons.1 he with rfl | he
    · exact Or.inl hf
    · exact Or.inr (mem_listFiles_of_mem_listNode f e rest he hf)

theorem mem_listFiles_of_fileAt {entries : List Node} {dirs : Path} {name : Str}
    (h : FileAt entries dirs name) :
    (∀ d ∈ dirs, d ∉ ignoreDirs) → (dirs, name) ∈ listFiles entries := by
  induction h with
  | here hm =>
    intro _
    exact mem_listFiles_of_mem_listNode _ _ _ hm (by simp [listNode])
  | @under entries children d dirs name hm _ ih =>
    intro hd
    refine mem_listFiles_of_mem_listNode _ _ _ hm ?_
    have hd0 : d ∉ ignoreDirs := hd d (List.mem_cons_self _ _)
    rw [listNode, if_neg hd0, List.mem_map]
    exact ⟨(dirs, name), ih fun x hx => hd x (List.mem_cons_of_mem _ hx), rfl⟩

theorem slashFreeNode_of_mem (e : Node) :
    ∀ entries : List Node, slashFree entries = true → e ∈ entries → slashFreeNode e = true
  | [], _, he => by simp at he
  | x :: rest, hs, he => by
    rw [slashFree, Bool.and_eq_true] at hs
    rcases List.mem_cons.1 he with rfl | he
    · exact hs.1
    · exact slashFreeNode_of_mem e rest hs.2 he

theorem slashFree_of_fileAt {entries : List Node} {dirs : Path} {name : Str}
    (h : FileAt entries dirs name) :
    slashFree entries = true → ∀ c ∈ dirs ++ [name], '/' ∉ c := by
  induction h with
  | here hm =>
    intro hs c hc
    have := slashFreeNode_of_mem _ _ hs hm
    simp only [slashFreeNode, decide_eq_true_eq] at this
    simp only [List.nil_append, List.mem_singleton] at hc
    subst hc
    exact this
  | under hm _ ih =>
    intro hs c hc
    have := slashFreeNode_of_mem _ _ hs hm
    simp only [slashFreeNode, Bool.and_eq_true, decide_eq_true_eq] at this
    rcases List.mem_cons.1 hc with rfl | hc
    · exact this.1
    · exact ih this.2 c hc

theorem splitSlash_joinSlash (comps : Path) (hne : comps ≠ [])
    (hfree : ∀ c ∈ comps, '/' ∉ c) : splitSlash (joinSlash comps) = comps := by
  unfold splitSlash joinSlash
  exact List.splitOn_intercalate comps '/' hfree hne

theorem mem_getMarkdownFiles (base : Path) (entries : List Node) (e : FileEntry) :
    e ∈ getMarkdownFiles base base [] entries ↔
      ∃ f ∈ listFiles entries, acceptedName f.2 = true ∧
        e = ⟨base ++ f.1 ++ [f.2], joinSlash (f.1 ++ [f.2])⟩ := by
  rw [getMarkdownFiles_eq_listFiles]
  simp only [List.nil_append, List.mem_map, List.mem_filter, List.append_assoc,
    relative_append]
  constructor
  · rintro ⟨f, ⟨hf, ha⟩, rfl⟩
    exact ⟨f, hf, ha, rfl⟩
  · rintro ⟨f, hf, ha, rfl⟩
    exact ⟨f, ⟨hf, ha⟩, rfl⟩

/-- C6: every entry `getMarkdownFiles` returns is a regular file of the tree
reached through directories none of which is named in the ignore set; its
`relPath` is these directory names and the file name joined by `/`, and, the
names of a file system containing no `/`, no directory component of the
`relPath` (none of its `/`-separated parts but the last) is in the ignore
set. -/
theorem ignored_directories_excluded (base : Path) (entries : List Node)
    (hfree : slashFree entries = true) (e : FileEntry)
    (he : e ∈ getMarkdownFiles base base [] entries) :
    (∃ dirs name, FileAt entries dirs name ∧ (∀ d ∈ dirs, d ∉ ignoreDirs) ∧
      e.absPath = base ++ dirs ++ [name] ∧ e.relPath = joinSlash (dirs ++ [name]) ∧
      (splitSlash e.relPath).dropLast = dirs) ∧
    ∀ d ∈ (splitSlash e.relPath).dropLast, d ∉ ignoreDirs := by
  obtain ⟨f, hf, -, rfl⟩ := (mem_getMarkdownFiles base entries e).1 he
  have hat := fileAt_of_mem_listFiles entries f hf
  have hsplit : (splitSlash (joinSlash (f.1 ++ [f.2]))).dropLast = f.1 := by
    rw [splitSlash_joinSlash _ (by simp) (slashFree_of_fileAt hat.1 hfree)]
    simp
  refine ⟨⟨f.1, f.2, hat.1, hat.2, rfl, rfl, hsplit⟩, ?_⟩
  simp only [hsplit]
  exact hat.2

theorem ignored_directories_excluded_witness :
    slashFree sampleTree = true ∧
    getMarkdownFiles ["docs".toList] ["docs".toList] [] sampleTree =
      [⟨["docs".toList, "README.MD".toList], "README.MD".toList⟩,
       ⟨["docs".toList, "guide".toList, "intro.mdx".toList], "guide/intro.mdx".toList⟩,
       ⟨["docs".toList, "guide".toList, "deep".toList, "x.markdown".toList],
         "guide/deep/x.markdown".toList⟩] ∧
    ∀ d ∈ (splitSlash "guide/deep/x.markdown".toList).dropLast, d ∉ ignoreDirs :=
  ⟨by decide, by decide,
   (ignored_directories_excluded ["docs".toList] sampleTree (by decide)
      ⟨["docs".toList, "guide".toList, "deep".toList, "x.markdown".toList],
        "guide/deep/x.markdown".toList⟩ (by decide)).2⟩

theorem head_of_mem_listNode (e : Node) (f : Path × Str) (h : f ∈ listNode e) :
    (f.1 ++ [f.2]).head? = some e.name := by
  cases e with
  | dir name children =>
    rw [listNode] at h
    split at h
    · simp at h
    · rw [List.mem_map] at h
      obtain ⟨g, -, rfl⟩ := h
      simp [Node.name]
  | file name content =>
    rw [listNode, List.mem_singleton] at h
    subst h
    simp [Node.name]
  | other name => simp [listNode] at h

theorem head_of_mem_listFiles (f : Path × Str) :
    ∀ entries : List Node, f ∈ listFiles entries →
      ∃ e ∈ entries, (f.1 ++ [f.2]).head? = some e.name
  | [], h => by simp [listFiles] at h
  | x :: rest, h => by
    rw [listFiles, List.mem_append] at h
    rcases h with h | h
    · exact ⟨x, List.mem_cons_self _ _, head_of_mem_listNode x f h⟩
    · obtain ⟨e, he, hh⟩ := head_of_mem_listFiles f rest h
      exact ⟨e, List.mem_cons_of_mem _ he, hh⟩

mutual
theorem nodup_listFiles : ∀ entries : List Node,
    uniqueNames entries = true → (listFiles entries).Nodup
  | [], _ => by simp [listFiles]
  | x :: rest, h => by
    rw [uniqueNames, Bool.and_eq_true, Bool.and_eq_true] at h
    obtain ⟨⟨hx, hnode⟩, hrest⟩ := h
    rw [listFiles, List.nodup_append]
    refine ⟨nodup_listNode x hnode, nodup_listFiles rest hrest, ?_⟩
    intro f hf1 hf2
    have h1 := head_of_mem_listNode x f hf1
    obtain ⟨e, he, h2⟩ := head_of_mem_listFiles f rest hf2
    rw [h1, Option.some.injEq] at h2
    have : (rest.any fun r => r.name == x.name) = true :=
      List.any_eq_true.2 ⟨e, he, by simp [h2]⟩
    rw [this] at hx
    exact absurd hx (by decide)
theorem nodup_listNode : ∀ e : Node, uniqueNode e = true → (listNode e).Nodup
  | .dir name children, h => by
    rw [uniqueNode] at h
    rw [listNode]
    split
    · exact List.nodup_nil
    · refine (nodup_listFiles children h).map ?_
      intro a b hab
      simp only [Prod.mk.injEq, List.cons.injEq, true_and] at hab
      exact Prod.ext hab.1 hab.2
  | .file name content, _ => by simp [listNode]
  | .other name, _ => by simp [listNode]
end

theorem path_eq_of_absPath_eq (base dirs dirs' : Path) (name name' : Str)
    (h : base ++ dirs ++ [name] = base ++ dirs' ++ [name']) : dirs = dirs' ∧ name = name' := by
  rw [List.append_assoc, List.append_assoc] at h
  have h2 := List.append_cancel_left h
  have h3 := List.append_inj' h2 rfl
  exact ⟨h3.1, by simpa using h3.2⟩

theorem nodup_getMarkdownFiles (base : Path) (entries : List Node)
    (hu : uniqueNames entries = true) : (getMarkdownFiles base base [] entries).Nodup := by
  rw [getMarkdownFiles_eq_listFiles, List.nil_append]
  refine ((nodup_listFiles entries hu).filter _).map ?_
  intro a b hab
  simp only [FileEntry.mk.injEq] at hab
  obtain ⟨h1, h2⟩ := path_eq_of_absPath_eq _ _ _ _ _ hab.1
  exact Prod.ext h1 h2

/-- C7: in a tree whose sibling names are distinct, for every regular file
reached from the root through directories none of which is ignored,
`getMarkdownFiles` returns the entry of that file, with `relPath` the directory
names and the file name joined by `/`, exactly once if the extension of the
file name, lower-cased, is one of `.md`, `.markdown`, `.mdx`, and returns no
entry for that file otherwise; no entry is returned twice; `README.MD` passes
the extension test and `notes.txt` does not.  The extension is the one
`path.extname` gives: the dot file `.md` has none and does not pass. -/
theorem getMarkdownFiles_extension_filter (base : Path) (entries : List Node)
    (dirs : Path) (name : Str)
    (hu : uniqueNames entries = true) (hat : FileAt entries dirs name)
    (hok : ∀ d ∈ dirs, d ∉ ignoreDirs) :
    ((getMarkdownFiles base base [] entries).count
        ⟨base ++ dirs ++ [name], joinSlash (dirs ++ [name])⟩ = 1 ↔
      toLowerCase (extname name) ∈ exts) ∧
    ((∃ e ∈ getMarkdownFiles base base [] entries, e.absPath = base ++ dirs ++ [name]) ↔
      toLowerCase (extname name) ∈ exts) ∧
    (∀ e ∈ getMarkdownFiles base base [] entries, e.absPath = base ++ dirs ++ [name] →
      e.relPath = joinSlash (dirs ++ [name])) ∧
    (getMarkdownFiles base base [] entries).Nodup ∧
    toLowerCase (extname "README.MD".toList) ∈ exts ∧
    toLowerCase (extname "notes.txt".toList) ∉ exts ∧
    toLowerCase (extname ".md".toList) ∉ exts := by
  have hmem := mem_listFiles_of_fileAt hat hok
  have hnd := nodup_getMarkdownFiles base entries hu
  have hex : (∃ e ∈ getMarkdownFiles base base [] entries,
      e.absPath = base ++ dirs ++ [name]) → toLowerCase (extname name) ∈ exts := by
    rintro ⟨e, he, hp⟩
    obtain ⟨f, -, ha, rfl⟩ := (mem_getMarkdownFiles base entries e).1 he
    obtain ⟨-, h2⟩ := path_eq_of_absPath_eq _ _ _ _ _ hp
    rw [← h2]
    simpa [acceptedName] using ha
  have hin : toLowerCase (extname name) ∈ exts →
      (⟨base ++ dirs ++ [name], joinSlash (dirs ++ [name])⟩ : FileEntry) ∈
        getMarkdownFiles base base [] entries := fun hacc =>
    (mem_getMarkdownFiles base entries _).2
      ⟨(dirs, name), hmem, by simpa [acceptedName] using hacc, rfl⟩
  refine ⟨⟨fun hc => hex ⟨⟨base ++ dirs ++ [name], joinSlash (dirs ++ [name])⟩, ?_, rfl⟩,
      fun hacc => List.count_eq_one_of_mem hnd (hin hacc)⟩,
    ⟨hex, fun hacc => ⟨_, hin hacc, rfl⟩⟩, ?_, hnd, by decide, by decide, by decide⟩
  · exact List.count_pos_iff.1 (by omega)
  · intro e he hp
    obtain ⟨f, -, -, rfl⟩ := (mem_getMarkdownFiles base entries e).1 he
    obtain ⟨h1, h2⟩ := path_eq_of_absPath_eq _ _ _ _ _ hp
    simp only at h1 h2 ⊢
    rw [h1, h2]

theorem getMarkdownFiles_extension_filter_witness :
    uniqueNames sampleTree = true ∧
    (∀ d ∈ ["guide".toList, "deep".toList], d ∉ ignoreDirs) ∧
    ((getMarkdownFiles ["docs".toList] ["docs".toList] [] sampleTree).count
        ⟨["docs".toList] ++ ["guide".toList, "deep".toList] ++ ["x.markdown".toList],
          joinSlash (["guide".toList, "deep".toList] ++ ["x.markdown".toList])⟩ = 1 ↔
      toLowerCase (extname "x.markdown".toList) ∈ exts) :=
  ⟨by decide, by decide,
   (getMarkdownFiles_extension_filter ["docs".toList] sampleTree
      ["guide".toList, "deep".toList] "x.markdown".toList (by decide)
      (FileAt.under (List.mem_cons_of_mem _ (List.mem_cons_of_mem _ (List.mem_cons_of_mem _
          (List.mem_cons_of_mem _ (List.mem_cons_self _ _)))))
        (FileAt.under (List.mem_cons_of_mem _ (List.mem_cons_of_mem _ (List.mem_cons_self _ _)))
          (FileAt.here (List.mem_cons_self _ _))))
      (by decide)).1⟩

example : localeCompare "e.md".toList "é.md".toList = 0 ∧ localeCompare "É.md".toList "é.md".toList = 0
  ∧ localeCompare "intro.md".toList "intro_2.md".toList = 1 ∧ localeCompare "a.md".toList "A.md".toList = 0
  ∧ localeCompare "b.md".toList "sub/a.md".toList = -1 ∧ localeCompare "a".toList "ab".toList = -1 := by decide

end ConcatMd
